import Mathlib

/-!
Shallow embedding of the settlement engine of the expense-splitter
repository (backend `ExpensesService`, file `expenses.service.ts`), together
with the participant string handling it relies on.

Modelling choices:
* JS numbers are modelled as exact rationals (`ℚ`); `Math.round(x*100)/100`
  becomes `round2` below (JS `Math.round` is round-half-toward-+∞, i.e.
  `⌊x + 1/2⌋`).
* JS strings are Lean `String`s; `String.prototype.split(',')`, `trim` and
  `filter(Boolean)` are embedded as executable char-level functions
  (`splitComma`, `trimChars`, `parseParticipants`).
* The JS object `balances` (string keys, insertion order preserved) is an
  insertion-ordered association list `List (String × ℚ)`; `addBalance`
  updates in place or appends, exactly as assignment to an object key does.
* The mutated arrays + cursor indices of the greedy two-pointer loop are
  embedded as a structural recursion `settleLoop` over the unconsumed
  suffixes of the debtor and creditor arrays; it also returns the leftover
  suffixes so that cursor exhaustion is observable.
-/

namespace ExpenseSplitter

/-- Embeds JS `String.prototype.trim` on the character list: drop whitespace
from both ends. -/
def trimChars (l : List Char) : List Char :=
  ((l.dropWhile Char.isWhitespace).reverse.dropWhile Char.isWhitespace).reverse

/-- Embeds `s.split(',')` from `calculateSettlements`: JS
`String.prototype.split` with a one-character separator cuts the character
stream at every comma (splitting the empty string yields one empty field,
separators at the ends produce empty fields), which is exactly
`List.splitOn`. -/
def splitComma (s : String) : List (List Char) :=
  s.data.splitOn ','

/-- The participant parsing in `calculateSettlements`:
`e.participants.split(',').map(p => p.trim()).filter(Boolean)`. -/
def parseParticipants (s : String) : List String :=
  (((splitComma s).map trimChars).filter (fun p => p ≠ [])).map (fun l => ⟨l⟩)

/-- Embeds JS `Array.prototype.join(',')` used by `create`
(`dto.participants.join(',')`). -/
def joinComma (parts : List String) : String :=
  ⟨List.intercalate [','] (parts.map String.data)⟩

/-- The `Expense` entity fields the settlement computation reads
(`payerName`, `amount`, `participants`; `description` kept for shape). -/
structure Expense where
  payerName : String
  amount : ℚ
  description : String
  participants : String
deriving DecidableEq, Repr

/-- Embeds `Math.round(x * 100) / 100`: JS `Math.round` is `⌊x + 1/2⌋`
(half rounds toward +∞). -/
def round2 (x : ℚ) : ℚ :=
  (⌊x * 100 + 1/2⌋ : ℤ) / 100

/-- A rational that is an exact two-decimal currency value (a whole number
of cents). All rounded balances and all settlement amounts are of this
form. -/
def IsCent (x : ℚ) : Prop :=
  ∃ k : ℤ, x = k / 100

/-- The `balances` object: string keys → running totals, insertion-ordered. -/
abbrev Balances := List (String × ℚ)

/-- Embeds `addBalance`: create the key at `0` if absent or falsy, then add
`amount` to it. Updating an existing key keeps its position; a new key is
appended, matching JS object key insertion order. (When the stored value is
`0`, the JS guard re-assigns `0` first, which changes nothing.) -/
def addBalance (bs : Balances) (name : String) (amount : ℚ) : Balances :=
  match bs with
  | [] => [(name, amount)]
  | (n, v) :: rest =>
    if n = name then (n, v + amount) :: rest
    else (n, v) :: addBalance rest name amount

/-- The body of `for (const e of expenses)` in `calculateSettlements`:
parse participants, skip if none, debit each participant an equal share,
credit the payer the full amount. -/
def processExpense (bs : Balances) (e : Expense) : Balances :=
  let participants := parseParticipants e.participants
  if participants.length = 0 then bs
  else
    let share := e.amount / participants.length
    let bs1 := participants.foldl (fun b p => addBalance b p (-share)) bs
    addBalance bs1 e.payerName e.amount

/-- The whole accumulation loop over the expense list. -/
def accumulateBalances (es : List Expense) : Balances :=
  es.foldl processExpense []

/-- The `Party` record of `calculateSettlements`: a name with a
positive amount owed or due. -/
structure Party where
  name : String
  amount : ℚ
deriving DecidableEq, Repr

/-- A settlement `{ from, to, amount }`; `from`/`to` are Lean keywords, so
the fields are named `fromName`/`toName`. -/
structure Transfer where
  fromName : String
  toName : String
  amount : ℚ
deriving DecidableEq, Repr

/-- The partition loop over `Object.entries(balances)` (insertion order):
round each balance; positive → push a creditor, negative → push a debtor
(stored positive), zero → neither. Returns `(creditors, debtors)`. -/
def partitionParties : Balances → List Party × List Party
  | [] => ([], [])
  | (name, balance) :: rest =>
    let rounded := round2 balance
    let acc := partitionParties rest
    if 0 < rounded then (⟨name, rounded⟩ :: acc.1, acc.2)
    else if rounded < 0 then (acc.1, ⟨name, -rounded⟩ :: acc.2)
    else acc

/-- The greedy two-pointer matching loop (`while (i < debtors.length && j <
creditors.length)`). The argument lists are the suffixes of `debtors` and
`creditors` from the cursors on; decrementing `debtor.amount` /
`creditor.amount` in place and advancing a cursor on exact zero becomes
replacing or dropping the head. Since `amount = min(debtor.amount,
creditor.amount)` equals one of the two, at least one head is consumed each
step; the fourth branch below is unreachable. Returns the emitted transfers
together with the unconsumed debtor and creditor suffixes. -/
def settleLoop : List Party → List Party → List Transfer × List Party × List Party
  | [], cs => ([], [], cs)
  | d :: ds, [] => ([], d :: ds, [])
  | d :: ds, c :: cs =>
    let amount := min d.amount c.amount
    let t : Transfer := ⟨d.name, c.name, round2 amount⟩
    let dRem := d.amount - amount
    let cRem := c.amount - amount
    let next :=
      if hd : dRem = 0 then
        if hc : cRem = 0 then settleLoop ds cs
        else settleLoop ds (⟨c.name, cRem⟩ :: cs)
      else
        if hc : cRem = 0 then settleLoop (⟨d.name, dRem⟩ :: ds) cs
        else settleLoop (⟨d.name, dRem⟩ :: ds) (⟨c.name, cRem⟩ :: cs)
    (t :: next.1, next.2)
termination_by ds cs => ds.length + cs.length
decreasing_by
  · simp only [List.length_cons]; omega
  · simp only [List.length_cons]; omega
  · simp only [List.length_cons]; omega
  · exact absurd (show c.amount - min d.amount c.amount = 0 by
      rcases min_cases d.amount c.amount with ⟨h1, _⟩ | ⟨h1, _⟩
      · exact absurd (show d.amount - min d.amount c.amount = 0 by rw [h1]; ring) hd
      · rw [h1]; ring) hc

/-- The whole of `calculateSettlements`: accumulate balances, partition
into creditors and debtors, run the greedy loop; returns the raw
`balances` object paired with the `settlements` transfer list. -/
def calculateSettlements (es : List Expense) : Balances × List Transfer :=
  let balances := accumulateBalances es
  let parts := partitionParties balances
  (balances, (settleLoop parts.2 parts.1).1)

/-! ## Unfolding lemmas for the greedy loop -/

theorem calculateSettlements_eq (es : List Expense) :
    calculateSettlements es =
      (accumulateBalances es,
        (settleLoop (partitionParties (accumulateBalances es)).2
          (partitionParties (accumulateBalances es)).1).1) := rfl

theorem settleLoop_nil_left (cs : List Party) : settleLoop [] cs = ([], [], cs) := by
  rw [settleLoop]

theorem settleLoop_nil_right (d : Party) (ds : List Party) :
    settleLoop (d :: ds) [] = ([], d :: ds, []) := by
  rw [settleLoop]

/-- One loop iteration when `debtor.amount === creditor.amount`: both
remainders hit zero, both cursors advance. -/
theorem settleLoop_cons_eq (d : Party) (ds : List Party) (c : Party) (cs : List Party)
    (h : d.amount = c.amount) :
    settleLoop (d :: ds) (c :: cs) =
      (⟨d.name, c.name, round2 d.amount⟩ :: (settleLoop ds cs).1, (settleLoop ds cs).2) := by
  rw [settleLoop]
  simp only [h, min_self, sub_self, eq_self_iff_true, dite_eq_ite, if_true]

/-- One loop iteration when `debtor.amount < creditor.amount`: the debtor is
consumed, the creditor keeps the difference. -/
theorem settleLoop_cons_lt (d : Party) (ds : List Party) (c : Party) (cs : List Party)
    (h : d.amount < c.amount) :
    settleLoop (d :: ds) (c :: cs) =
      (⟨d.name, c.name, round2 d.amount⟩ ::
          (settleLoop ds (⟨c.name, c.amount - d.amount⟩ :: cs)).1,
        (settleLoop ds (⟨c.name, c.amount - d.amount⟩ :: cs)).2) := by
  have hmin : min d.amount c.amount = d.amount := min_eq_left h.le
  have hc : ¬ (c.amount - d.amount = 0) := by
    intro hh
    exact absurd (sub_eq_zero.mp hh) (ne_of_gt h)
  rw [settleLoop]
  simp only [hmin, sub_self, eq_self_iff_true, dite_eq_ite, if_true, if_neg hc]

/-- One loop iteration when `creditor.amount < debtor.amount`: the creditor
is consumed, the debtor keeps the difference. -/
theorem settleLoop_cons_gt (d : Party) (ds : List Party) (c : Party) (cs : List Party)
    (h : c.amount < d.amount) :
    settleLoop (d :: ds) (c :: cs) =
      (⟨d.name, c.name, round2 c.amount⟩ ::
          (settleLoop (⟨d.name, d.amount - c.amount⟩ :: ds) cs).1,
        (settleLoop (⟨d.name, d.amount - c.amount⟩ :: ds) cs).2) := by
  have hmin : min d.amount c.amount = c.amount := min_eq_right h.le
  have hd : ¬ (d.amount - c.amount = 0) := by
    intro hh
    exact absurd (sub_eq_zero.mp hh) (ne_of_gt h)
  rw [settleLoop]
  simp only [hmin, sub_self, eq_self_iff_true, dite_eq_ite, if_true, if_neg hd]

/-! ## Concrete evaluations (the spec's worked examples)

`Rat.add`/`mul`/`inv`/`sub` are `@[irreducible]` in Batteries, so the
kernel-level `decide` needs them unsealed; `settleLoop` is well-founded
recursion and is evaluated through the step lemmas above instead. -/

unseal Rat.add Rat.mul Rat.inv Rat.sub in
theorem accum_equal90 :
    accumulateBalances [⟨"A", 90, "trip", "A,B,C"⟩] =
      [("A", 60), ("B", -30), ("C", -30)] := by decide

unseal Rat.add Rat.mul Rat.inv Rat.sub in
theorem partition_equal90 :
    partitionParties [("A", (60 : ℚ)), ("B", -30), ("C", -30)] =
      ([⟨"A", 60⟩], [⟨"B", 30⟩, ⟨"C", 30⟩]) := by decide

theorem settle_equal90 :
    settleLoop [⟨"B", (30 : ℚ)⟩, ⟨"C", 30⟩] [⟨"A", 60⟩] =
      ([⟨"B", "A", 30⟩, ⟨"C", "A", 30⟩], [], []) := by
  rw [settleLoop_cons_lt _ _ _ _ (by norm_num),
    settleLoop_cons_eq _ _ _ _ (by norm_num), settleLoop_nil_left]
  norm_num [round2]

/-- C5: one record, payer "A", amount 90.00, participants "A,B,C" →
balances {A: 60, B: −30, C: −30} and transfers B→A 30 then C→A 30. -/
theorem single_expense_equal_split :
    calculateSettlements [⟨"A", 90, "trip", "A,B,C"⟩] =
      ([("A", 60), ("B", -30), ("C", -30)],
        [⟨"B", "A", 30⟩, ⟨"C", "A", 30⟩]) := by
  rw [calculateSettlements_eq, accum_equal90, partition_equal90]
  rw [show (([⟨"A", (60 : ℚ)⟩], [⟨"B", (30 : ℚ)⟩, ⟨"C", 30⟩]) :
      List Party × List Party).2 = [⟨"B", (30 : ℚ)⟩, ⟨"C", 30⟩] from rfl]
  rw [show (([⟨"A", (60 : ℚ)⟩], [⟨"B", (30 : ℚ)⟩, ⟨"C", 30⟩]) :
      List Party × List Party).1 = [⟨"A", (60 : ℚ)⟩] from rfl]
  rw [settle_equal90]

/-- C6: debtors [D1: 40, D2: 10] against creditors [C1: 30, C2: 20] in
encountered order produce D1→C1 30, D1→C2 10, D2→C2 10 and both lists are
exhausted. -/
theorem greedy_two_pointer_matching :
    settleLoop [⟨"D1", (40 : ℚ)⟩, ⟨"D2", 10⟩] [⟨"C1", 30⟩, ⟨"C2", 20⟩] =
      ([⟨"D1", "C1", 30⟩, ⟨"D1", "C2", 10⟩, ⟨"D2", "C2", 10⟩], [], []) := by
  rw [settleLoop_cons_gt _ _ _ _ (by norm_num)]
  norm_num only []
  rw [settleLoop_cons_lt _ _ _ _ (by norm_num)]
  norm_num only []
  rw [settleLoop_cons_eq _ _ _ _ (by norm_num), settleLoop_nil_left]
  norm_num [round2]

unseal Rat.add Rat.mul Rat.inv Rat.sub in
theorem accum_weighted :
    accumulateBalances [⟨"A", 30, "dinner", "A:1,B:2"⟩] =
      [("A:1", -15), ("B:2", -15), ("A", 30)] := by decide

unseal Rat.add Rat.mul Rat.inv Rat.sub in
theorem partition_weighted :
    partitionParties [("A:1", (-15 : ℚ)), ("B:2", -15), ("A", 30)] =
      ([⟨"A", 30⟩], [⟨"A:1", 15⟩, ⟨"B:2", 15⟩]) := by decide

theorem settle_weighted :
    settleLoop [⟨"A:1", (15 : ℚ)⟩, ⟨"B:2", 15⟩] [⟨"A", 30⟩] =
      ([⟨"A:1", "A", 15⟩, ⟨"B:2", "A", 15⟩], [], []) := by
  rw [settleLoop_cons_lt _ _ _ _ (by norm_num)]
  norm_num only []
  rw [settleLoop_cons_eq _ _ _ _ (by norm_num), settleLoop_nil_left]
  norm_num [round2]

/-- The full engine result on the record whose participants string carries
the weighted `name:weight` syntax: the tokens `A:1` and `B:2` are treated
as two distinct participant names, each debited half of 30. -/
theorem eval_weighted :
    calculateSettlements [⟨"A", 30, "dinner", "A:1,B:2"⟩] =
      ([("A:1", -15), ("B:2", -15), ("A", 30)],
        [⟨"A:1", "A", 15⟩, ⟨"B:2", "A", 15⟩]) := by
  rw [calculateSettlements_eq, accum_weighted, partition_weighted]
  rw [show (([⟨"A", (30 : ℚ)⟩], [⟨"A:1", (15 : ℚ)⟩, ⟨"B:2", 15⟩]) :
      List Party × List Party).2 = [⟨"A:1", (15 : ℚ)⟩, ⟨"B:2", 15⟩] from rfl]
  rw [show (([⟨"A", (30 : ℚ)⟩], [⟨"A:1", (15 : ℚ)⟩, ⟨"B:2", 15⟩]) :
      List Party × List Party).1 = [⟨"A", (30 : ℚ)⟩] from rfl]
  rw [settle_weighted]

unseal Rat.add Rat.mul Rat.inv Rat.sub in
theorem accum_plain :
    accumulateBalances [⟨"A", 30, "dinner", "A,B"⟩] = [("A", 15), ("B", -15)] := by decide

unseal Rat.add Rat.mul Rat.inv Rat.sub in
theorem partition_plain :
    partitionParties [("A", (15 : ℚ)), ("B", -15)] = ([⟨"A", 15⟩], [⟨"B", 15⟩]) := by decide

theorem settle_plain :
    settleLoop [⟨"B", (15 : ℚ)⟩] [⟨"A", 15⟩] = ([⟨"B", "A", 15⟩], [], []) := by
  rw [settleLoop_cons_eq _ _ _ _ (by norm_num), settleLoop_nil_left]
  norm_num [round2]

/-- The engine result on the record as the creation path actually stores it
(names joined with commas, weights dropped): an equal two-way split. -/
theorem eval_plain :
    calculateSettlements [⟨"A", 30, "dinner", "A,B"⟩] =
      ([("A", 15), ("B", -15)], [⟨"B", "A", 15⟩]) := by
  rw [calculateSettlements_eq, accum_plain, partition_plain]
  rw [show (([⟨"A", (15 : ℚ)⟩], [⟨"B", (15 : ℚ)⟩]) :
      List Party × List Party).2 = [⟨"B", (15 : ℚ)⟩] from rfl]
  rw [show (([⟨"A", (15 : ℚ)⟩], [⟨"B", (15 : ℚ)⟩]) :
      List Party × List Party).1 = [⟨"A", (15 : ℚ)⟩] from rfl]
  rw [settle_plain]

/-- C1 counterexample: on the single record payer "A", amount 30.00 whose
participants carry the weights `[("A",1),("B",2)]` (wire syntax
`"A:1,B:2"`), the settlement computation does NOT produce balance 20 for A,
−20 for B and a single transfer B→A 20. -/
theorem weighted_split_counterexample :
    ¬ (("A", (20 : ℚ)) ∈ (calculateSettlements [⟨"A", 30, "dinner", "A:1,B:2"⟩]).1 ∧
        ("B", (-20 : ℚ)) ∈ (calculateSettlements [⟨"A", 30, "dinner", "A:1,B:2"⟩]).1 ∧
        (calculateSettlements [⟨"A", 30, "dinner", "A:1,B:2"⟩]).2 = [⟨"B", "A", 20⟩]) := by
  rw [eval_weighted]
  decide

/-- C1 amended: the settlement computation ignores participant weights and
splits each amount equally among the comma-separated participant tokens.
Stored as names only (`"A,B"`, what `create` produces), the record gives
A: 15, B: −15 and one transfer B→A 15; stored with the weighted wire syntax
(`"A:1,B:2"`), the tokens are treated as distinct names, each debited an
equal share of 15. -/
theorem equal_split_amended :
    calculateSettlements [⟨"A", 30, "dinner", "A,B"⟩] =
        ([("A", 15), ("B", -15)], [⟨"B", "A", 15⟩]) ∧
      calculateSettlements [⟨"A", 30, "dinner", "A:1,B:2"⟩] =
        ([("A:1", -15), ("B:2", -15), ("A", 30)],
          [⟨"A:1", "A", 15⟩, ⟨"B:2", "A", 15⟩]) :=
  ⟨eval_plain, eval_weighted⟩

/-! ## Rounding and cent-value lemmas -/

theorem isCent_round2 (x : ℚ) : IsCent (round2 x) :=
  ⟨⌊x * 100 + 1/2⌋, rfl⟩

theorem IsCent.round2_eq {x : ℚ} (h : IsCent x) : round2 x = x := by
  obtain ⟨k, rfl⟩ := h
  unfold round2
  rw [div_mul_cancel₀ _ (by norm_num : (100 : ℚ) ≠ 0), add_comm,
    Int.floor_add_int, show ⌊(1/2 : ℚ)⌋ = 0 by norm_num, zero_add]

theorem IsCent.neg {x : ℚ} (h : IsCent x) : IsCent (-x) := by
  obtain ⟨k, rfl⟩ := h
  exact ⟨-k, by push_cast; ring⟩

theorem IsCent.sub {x y : ℚ} (hx : IsCent x) (hy : IsCent y) : IsCent (x - y) := by
  obtain ⟨k, rfl⟩ := hx
  obtain ⟨m, rfl⟩ := hy
  exact ⟨k - m, by push_cast; ring⟩

theorem IsCent.min {x y : ℚ} (hx : IsCent x) (hy : IsCent y) : IsCent (min x y) := by
  rcases min_cases x y with ⟨h, _⟩ | ⟨h, _⟩ <;> rw [h] <;> assumption

theorem IsCent.cent_le_of_pos {x : ℚ} (h : IsCent x) (hx : 0 < x) : 1/100 ≤ x := by
  obtain ⟨k, rfl⟩ := h
  rw [lt_div_iff₀ (by norm_num : (0:ℚ) < 100), zero_mul] at hx
  have hk : 0 < k := by exact_mod_cast hx
  have hk1 : (1 : ℚ) ≤ (k : ℚ) := by exact_mod_cast hk
  gcongr

theorem round2_sub_abs (x : ℚ) : |round2 x - x| ≤ 1/200 := by
  have h1 : ((⌊x * 100 + 1/2⌋ : ℤ) : ℚ) ≤ x * 100 + 1/2 := Int.floor_le _
  have h2 : x * 100 + 1/2 - 1 < ((⌊x * 100 + 1/2⌋ : ℤ) : ℚ) := Int.sub_one_lt_floor _
  rw [abs_le]
  unfold round2
  constructor <;> [linarith; linarith]

/-! ## Balance accumulation: conservation and key distinctness -/

theorem addBalance_snd_sum (bs : Balances) (n : String) (a : ℚ) :
    ((addBalance bs n a).map Prod.snd).sum = (bs.map Prod.snd).sum + a := by
  induction bs with
  | nil => simp [addBalance]
  | cons hd tl ih =>
    obtain ⟨m, v⟩ := hd
    unfold addBalance
    by_cases hm : m = n
    · simp only [if_pos hm, List.map_cons, List.sum_cons]
      ring
    · simp only [if_neg hm, List.map_cons, List.sum_cons, ih]
      ring

theorem addBalance_fst (bs : Balances) (n : String) (a : ℚ) :
    (addBalance bs n a).map Prod.fst =
      if n ∈ bs.map Prod.fst then bs.map Prod.fst else bs.map Prod.fst ++ [n] := by
  induction bs with
  | nil => simp [addBalance]
  | cons hd tl ih =>
    obtain ⟨m, v⟩ := hd
    unfold addBalance
    by_cases hm : m = n
    · simp [hm]
    · by_cases hmem : n ∈ tl.map Prod.fst
      · simp only [if_neg hm, List.map_cons, ih, if_pos hmem]
        rw [if_pos (List.mem_cons_of_mem _ hmem)]
      · simp only [List.map_cons, if_neg hm, ih, if_neg hmem]
        rw [if_neg (by
          simp only [List.mem_cons]
          push_neg
          exact ⟨fun hh => hm hh.symm, hmem⟩)]
        simp

theorem addBalance_fst_nodup (bs : Balances) (n : String) (a : ℚ)
    (h : (bs.map Prod.fst).Nodup) : ((addBalance bs n a).map Prod.fst).Nodup := by
  rw [addBalance_fst]
  split
  · exact h
  · next hn => exact List.Nodup.append h (List.nodup_singleton n) (by simpa using hn)

unseal Rat.add Rat.mul Rat.inv Rat.sub in
theorem accum_thirds :
    accumulateBalances [⟨"A", 10, "lunch", "A,B,C"⟩] =
      [("A", 20/3), ("B", -10/3), ("C", -10/3)] := by decide

unseal Rat.add Rat.mul Rat.inv Rat.sub in
/-- C2 counterexample: the balances mapping returned for the single record
payer "A", amount 10.00, participants "A,B,C" contains the value 20/3 for
"A", which is not an exact two-decimal value. -/
theorem balances_not_rounded_counterexample :
    ("A", (20/3 : ℚ)) ∈ (calculateSettlements [⟨"A", 10, "lunch", "A,B,C"⟩]).1 ∧
      round2 (20/3) ≠ (20/3 : ℚ) := by
  constructor
  · rw [show (calculateSettlements [⟨"A", 10, "lunch", "A,B,C"⟩]).1 =
        accumulateBalances [⟨"A", 10, "lunch", "A,B,C"⟩] from rfl, accum_thirds]
    decide
  · decide

theorem foldl_addBalance_snd_sum (ps : List String) (share : ℚ) (bs : Balances) :
    (((ps.foldl (fun b p => addBalance b p (-share)) bs)).map Prod.snd).sum =
      (bs.map Prod.snd).sum - ps.length * share := by
  induction ps generalizing bs with
  | nil => simp
  | cons p ps ih =>
    rw [List.foldl_cons, ih, addBalance_snd_sum]
    push_cast [List.length_cons]
    ring

theorem processExpense_snd_sum (bs : Balances) (e : Expense) :
    ((processExpense bs e).map Prod.snd).sum = (bs.map Prod.snd).sum := by
  unfold processExpense
  by_cases h : (parseParticipants e.participants).length = 0
  · rw [if_pos h]
  · rw [if_neg h]
    rw [addBalance_snd_sum, foldl_addBalance_snd_sum]
    have hn : ((parseParticipants e.participants).length : ℚ) ≠ 0 := by
      exact_mod_cast h
    field_simp

theorem foldl_processExpense_snd_sum (es : List Expense) (bs : Balances) :
    ((es.foldl processExpense bs).map Prod.snd).sum = (bs.map Prod.snd).sum := by
  induction es generalizing bs with
  | nil => rfl
  | cons e es ih => rw [List.foldl_cons, ih, processExpense_snd_sum]

/-- Conservation of the raw running totals: before any rounding, the
balances sum to exactly zero. -/
theorem accumulateBalances_snd_sum (es : List Expense) :
    ((accumulateBalances es).map Prod.snd).sum = 0 := by
  rw [accumulateBalances, foldl_processExpense_snd_sum]
  rfl

theorem foldl_addBalance_fst_nodup (ps : List String) (share : ℚ) (bs : Balances)
    (h : (bs.map Prod.fst).Nodup) :
    (((ps.foldl (fun b p => addBalance b p (-share)) bs)).map Prod.fst).Nodup := by
  induction ps generalizing bs with
  | nil => exact h
  | cons p ps ih => exact ih _ (addBalance_fst_nodup _ _ _ h)

theorem processExpense_fst_nodup (bs : Balances) (e : Expense)
    (h : (bs.map Prod.fst).Nodup) : ((processExpense bs e).map Prod.fst).Nodup := by
  unfold processExpense
  by_cases hl : (parseParticipants e.participants).length = 0
  · rw [if_pos hl]; exact h
  · rw [if_neg hl]
    exact addBalance_fst_nodup _ _ _ (foldl_addBalance_fst_nodup _ _ _ h)

/-- The keys of the balances object are pairwise distinct (it is a map). -/
theorem accumulateBalances_fst_nodup (es : List Expense) :
    ((accumulateBalances es).map Prod.fst).Nodup := by
  rw [accumulateBalances]
  have : ∀ bs : Balances, (bs.map Prod.fst).Nodup →
      ((es.foldl processExpense bs).map Prod.fst).Nodup := by
    induction es with
    | nil => exact fun bs h => h
    | cons e es ih => exact fun bs h => ih _ (processExpense_fst_nodup _ _ h)
  exact this [] (by simp)

/-- In an association list with distinct keys, a key determines its value. -/
theorem value_unique_of_fst_nodup {bs : Balances} (h : (bs.map Prod.fst).Nodup)
    {n : String} {v w : ℚ} (h1 : (n, v) ∈ bs) (h2 : (n, w) ∈ bs) : v = w := by
  induction bs with
  | nil => cases h1
  | cons hd tl ih =>
    obtain ⟨m, u⟩ := hd
    simp only [List.map_cons, List.nodup_cons] at h
    rcases List.mem_cons.mp h1 with he1 | ht1 <;> rcases List.mem_cons.mp h2 with he2 | ht2
    · injection he1 with h1a h1b
      injection he2 with h2a h2b
      rw [h1b, h2b]
    · injection he1 with h1a h1b
      exact absurd (List.mem_map.mpr ⟨(n, w), ht2, by rw [h1a]⟩) h.1
    · injection he2 with h2a h2b
      exact absurd (List.mem_map.mpr ⟨(n, v), ht1, by rw [h2a]⟩) h.1
    · exact ih h.2 ht1 ht2

/-! ## Partition lemmas -/

theorem partitionParties_cons (n : String) (b : ℚ) (tl : Balances) :
    partitionParties ((n, b) :: tl) =
      if 0 < round2 b then
        (⟨n, round2 b⟩ :: (partitionParties tl).1, (partitionParties tl).2)
      else if round2 b < 0 then
        ((partitionParties tl).1, ⟨n, -round2 b⟩ :: (partitionParties tl).2)
      else partitionParties tl := rfl

theorem partitionParties_creditors_mem (bs : Balances) (p : Party)
    (hp : p ∈ (partitionParties bs).1) :
    ∃ v, (p.name, v) ∈ bs ∧ 0 < round2 v ∧ p.amount = round2 v := by
  induction bs with
  | nil => cases hp
  | cons hd tl ih =>
    obtain ⟨n, b⟩ := hd
    rw [partitionParties_cons] at hp
    by_cases h1 : 0 < round2 b
    · rw [if_pos h1] at hp
      rcases List.mem_cons.mp hp with he | ht
      · subst he
        exact ⟨b, List.mem_cons_self _ _, h1, rfl⟩
      · obtain ⟨v, hv1, hv2, hv3⟩ := ih ht
        exact ⟨v, List.mem_cons_of_mem _ hv1, hv2, hv3⟩
    · rw [if_neg h1] at hp
      by_cases h2 : round2 b < 0
      · rw [if_pos h2] at hp
        obtain ⟨v, hv1, hv2, hv3⟩ := ih hp
        exact ⟨v, List.mem_cons_of_mem _ hv1, hv2, hv3⟩
      · rw [if_neg h2] at hp
        obtain ⟨v, hv1, hv2, hv3⟩ := ih hp
        exact ⟨v, List.mem_cons_of_mem _ hv1, hv2, hv3⟩

theorem partitionParties_debtors_mem (bs : Balances) (p : Party)
    (hp : p ∈ (partitionParties bs).2) :
    ∃ v, (p.name, v) ∈ bs ∧ round2 v < 0 ∧ p.amount = -round2 v := by
  induction bs with
  | nil => cases hp
  | cons hd tl ih =>
    obtain ⟨n, b⟩ := hd
    rw [partitionParties_cons] at hp
    by_cases h1 : 0 < round2 b
    · rw [if_pos h1] at hp
      obtain ⟨v, hv1, hv2, hv3⟩ := ih hp
      exact ⟨v, List.mem_cons_of_mem _ hv1, hv2, hv3⟩
    · rw [if_neg h1] at hp
      by_cases h2 : round2 b < 0
      · rw [if_pos h2] at hp
        rcases List.mem_cons.mp hp with he | ht
        · subst he
          exact ⟨b, List.mem_cons_self _ _, h2, rfl⟩
        · obtain ⟨v, hv1, hv2, hv3⟩ := ih ht
          exact ⟨v, List.mem_cons_of_mem _ hv1, hv2, hv3⟩
      · rw [if_neg h2] at hp
        obtain ⟨v, hv1, hv2, hv3⟩ := ih hp
        exact ⟨v, List.mem_cons_of_mem _ hv1, hv2, hv3⟩

theorem partitionParties_creditors_inv (bs : Balances) :
    ∀ p ∈ (partitionParties bs).1, 0 < p.amount ∧ IsCent p.amount := by
  intro p hp
  obtain ⟨v, _, hv, hamt⟩ := partitionParties_creditors_mem bs p hp
  exact ⟨hamt ▸ hv, hamt ▸ isCent_round2 v⟩

theorem partitionParties_debtors_inv (bs : Balances) :
    ∀ p ∈ (partitionParties bs).2, 0 < p.amount ∧ IsCent p.amount := by
  intro p hp
  obtain ⟨v, _, hv, hamt⟩ := partitionParties_debtors_mem bs p hp
  refine ⟨hamt ▸ neg_pos.mpr hv, hamt ▸ (isCent_round2 v).neg⟩

theorem partitionParties_creditors_length (bs : Balances) :
    (partitionParties bs).1.length = bs.countP (fun p => decide (0 < round2 p.2)) := by
  induction bs with
  | nil => rfl
  | cons hd tl ih =>
    obtain ⟨n, b⟩ := hd
    rw [partitionParties_cons, List.countP_cons]
    by_cases h1 : 0 < round2 b
    · rw [if_pos h1]
      simp [h1, ih]
    · rw [if_neg h1]
      by_cases h2 : round2 b < 0
      · rw [if_pos h2]
        simp [h1, ih]
      · rw [if_neg h2]
        simp [h1, ih]

theorem partitionParties_debtors_length (bs : Balances) :
    (partitionParties bs).2.length = bs.countP (fun p => decide (round2 p.2 < 0)) := by
  induction bs with
  | nil => rfl
  | cons hd tl ih =>
    obtain ⟨n, b⟩ := hd
    rw [partitionParties_cons, List.countP_cons]
    by_cases h1 : 0 < round2 b
    · rw [if_pos h1]
      simp [show ¬ round2 b < 0 by linarith, ih]
    · rw [if_neg h1]
      by_cases h2 : round2 b < 0
      · rw [if_pos h2]
        simp [h2, ih]
      · rw [if_neg h2]
        simp [h2, ih]

/-! ## Greedy loop invariants -/

/-- Every transfer the loop emits carries a positive whole number of
cents, provided every debtor and creditor entry does (which the partition
guarantees). -/
theorem settleLoop_transfers_inv :
    ∀ (ds cs : List Party),
      (∀ p ∈ ds, 0 < p.amount ∧ IsCent p.amount) →
      (∀ p ∈ cs, 0 < p.amount ∧ IsCent p.amount) →
      ∀ t ∈ (settleLoop ds cs).1, 0 < t.amount ∧ IsCent t.amount := by
  intro ds cs
  induction ds, cs using settleLoop.induct with
  | case1 cs =>
    intro _ _ t ht
    rw [settleLoop_nil_left] at ht
    cases ht
  | case2 d ds =>
    intro _ _ t ht
    rw [settleLoop_nil_right] at ht
    cases ht
  | case3 d ds c cs amount dRem cRem ih1 ih2 ih3 ih4 =>
    intro hds hcs t ht
    unfold_let amount dRem cRem at ih2 ih3
    obtain ⟨hdpos, hdcent⟩ := hds d (List.mem_cons_self _ _)
    obtain ⟨hcpos, hccent⟩ := hcs c (List.mem_cons_self _ _)
    have hds' : ∀ p ∈ ds, 0 < p.amount ∧ IsCent p.amount :=
      fun p hp => hds p (List.mem_cons_of_mem _ hp)
    have hcs' : ∀ p ∈ cs, 0 < p.amount ∧ IsCent p.amount :=
      fun p hp => hcs p (List.mem_cons_of_mem _ hp)
    rcases lt_trichotomy d.amount c.amount with hlt | heq | hgt
    · rw [settleLoop_cons_lt d ds c cs hlt] at ht
      rw [min_eq_left hlt.le] at ih2
      rcases List.mem_cons.mp ht with he | ht2
      · rw [he]
        show 0 < round2 d.amount ∧ IsCent (round2 d.amount)
        rw [hdcent.round2_eq]
        exact ⟨hdpos, hdcent⟩
      · refine ih2 hds' ?_ t ht2
        intro p hp
        rcases List.mem_cons.mp hp with he2 | ht3
        · rw [he2]
          exact ⟨sub_pos.mpr hlt, hccent.sub hdcent⟩
        · exact hcs' p ht3
    · rw [settleLoop_cons_eq d ds c cs heq] at ht
      rcases List.mem_cons.mp ht with he | ht2
      · rw [he]
        show 0 < round2 d.amount ∧ IsCent (round2 d.amount)
        rw [hdcent.round2_eq]
        exact ⟨hdpos, hdcent⟩
      · exact ih1 hds' hcs' t ht2
    · rw [settleLoop_cons_gt d ds c cs hgt] at ht
      rw [min_eq_right hgt.le] at ih3
      rcases List.mem_cons.mp ht with he | ht2
      · rw [he]
        show 0 < round2 c.amount ∧ IsCent (round2 c.amount)
        rw [hccent.round2_eq]
        exact ⟨hcpos, hccent⟩
      · refine ih3 ?_ hcs' t ht2
        intro p hp
        rcases List.mem_cons.mp hp with he2 | ht3
        · rw [he2]
          exact ⟨sub_pos.mpr hgt, hdcent.sub hccent⟩
        · exact hds' p ht3

/-- Each loop iteration emits one transfer and consumes at least one list
head, and the loop stops as soon as either list is empty. -/
theorem settleLoop_length_le : ∀ (ds cs : List Party),
    (settleLoop ds cs).1.length ≤ ds.length + cs.length - 1 := by
  intro ds cs
  induction ds, cs using settleLoop.induct with
  | case1 cs =>
    rw [settleLoop_nil_left]
    simp
  | case2 d ds =>
    rw [settleLoop_nil_right]
    simp
  | case3 d ds c cs amount dRem cRem ih1 ih2 ih3 ih4 =>
    unfold_let amount dRem cRem at ih2 ih3
    rcases lt_trichotomy d.amount c.amount with hlt | heq | hgt
    · rw [settleLoop_cons_lt d ds c cs hlt]
      rw [min_eq_left hlt.le] at ih2
      simp only [List.length_cons] at ih2 ⊢
      omega
    · rw [settleLoop_cons_eq d ds c cs heq]
      simp only [List.length_cons] at ih1 ⊢
      omega
    · rw [settleLoop_cons_gt d ds c cs hgt]
      rw [min_eq_right hgt.le] at ih3
      simp only [List.length_cons] at ih3 ⊢
      omega

/-- Transfer endpoints come from the argument lists: `from` names are
debtor names, `to` names are creditor names. -/
theorem settleLoop_names : ∀ (ds cs : List Party), ∀ t ∈ (settleLoop ds cs).1,
    t.fromName ∈ ds.map Party.name ∧ t.toName ∈ cs.map Party.name := by
  intro ds cs
  induction ds, cs using settleLoop.induct with
  | case1 cs =>
    intro t ht
    rw [settleLoop_nil_left] at ht
    cases ht
  | case2 d ds =>
    intro t ht
    rw [settleLoop_nil_right] at ht
    cases ht
  | case3 d ds c cs amount dRem cRem ih1 ih2 ih3 ih4 =>
    intro t ht
    unfold_let amount dRem cRem at ih2 ih3
    rcases lt_trichotomy d.amount c.amount with hlt | heq | hgt
    · rw [settleLoop_cons_lt d ds c cs hlt] at ht
      rw [min_eq_left hlt.le] at ih2
      rcases List.mem_cons.mp ht with he | ht2
      · rw [he]
        exact ⟨by simp, by simp⟩
      · obtain ⟨hf, hto⟩ := ih2 t ht2
        simp only [List.map_cons] at hf hto ⊢
        exact ⟨List.mem_cons_of_mem _ hf, hto⟩
    · rw [settleLoop_cons_eq d ds c cs heq] at ht
      rcases List.mem_cons.mp ht with he | ht2
      · rw [he]
        exact ⟨by simp, by simp⟩
      · obtain ⟨hf, hto⟩ := ih1 t ht2
        simp only [List.map_cons] at hf hto ⊢
        exact ⟨List.mem_cons_of_mem _ hf, List.mem_cons_of_mem _ hto⟩
    · rw [settleLoop_cons_gt d ds c cs hgt] at ht
      rw [min_eq_right hgt.le] at ih3
      rcases List.mem_cons.mp ht with he | ht2
      · rw [he]
        exact ⟨by simp, by simp⟩
      · obtain ⟨hf, hto⟩ := ih3 t ht2
        simp only [List.map_cons] at hf hto ⊢
        exact ⟨hf, List.mem_cons_of_mem _ hto⟩

/-! ## Claims C3, C4, C7 -/

/-- C3: every transfer emitted by the settlement computation has a strictly
positive amount; a zero-amount transfer is never emitted. -/
theorem transfers_positive (es : List Expense) (t : Transfer)
    (ht : t ∈ (calculateSettlements es).2) : 0 < t.amount := by
  rw [calculateSettlements_eq] at ht
  exact (settleLoop_transfers_inv _ _
    (partitionParties_debtors_inv _) (partitionParties_creditors_inv _) t ht).1

/-- Witness for C3 at the concrete input of the amended weighted-split
example: the single emitted transfer B→A 15 has positive amount. -/
theorem transfers_positive_witness :
    0 < (Transfer.mk "B" "A" 15).amount :=
  transfers_positive [⟨"A", 30, "dinner", "A,B"⟩] ⟨"B", "A", 15⟩
    (by rw [eval_plain]; decide)

/-- C4: the rounded final balances sum to zero within 0.01 per distinct
party; the names in the balances mapping are pairwise distinct, and the
absolute value of the sum of their rounded balances is at most
`(number of parties) / 100`. -/
theorem conservation (es : List Expense) :
    (((calculateSettlements es).1.map Prod.fst).Nodup) ∧
      |(((calculateSettlements es).1.map (fun p => round2 p.2)).sum)| ≤
        ((calculateSettlements es).1.length : ℚ) * (1/100) := by
  have hbal : (calculateSettlements es).1 = accumulateBalances es := rfl
  rw [hbal]
  refine ⟨accumulateBalances_fst_nodup es, ?_⟩
  have habs : ∀ l : List ℚ, |((l.map round2).sum - l.sum)| ≤ (l.length : ℚ) * (1/200) := by
    intro l
    induction l with
    | nil => simp
    | cons x xs ih =>
      have hx := round2_sub_abs x
      simp only [List.map_cons, List.sum_cons, List.length_cons]
      have : round2 x + (xs.map round2).sum - (x + xs.sum) =
          (round2 x - x) + ((xs.map round2).sum - xs.sum) := by ring
      rw [this]
      calc |(round2 x - x) + ((xs.map round2).sum - xs.sum)|
          ≤ |round2 x - x| + |((xs.map round2).sum - xs.sum)| := abs_add _ _
        _ ≤ 1/200 + (xs.length : ℚ) * (1/200) := add_le_add hx ih
        _ = ((xs.length : ℚ) + 1) * (1/200) := by ring
      push_cast
      linarith
  have hsum := accumulateBalances_snd_sum es
  have hmm : ((accumulateBalances es).map (fun p => round2 p.2)).sum =
      (((accumulateBalances es).map Prod.snd).map round2).sum := by
    rw [List.map_map]
    rfl
  have h1 := habs ((accumulateBalances es).map Prod.snd)
  rw [hsum, sub_zero, List.length_map] at h1
  rw [hmm]
  calc |(((accumulateBalances es).map Prod.snd).map round2).sum|
      ≤ ((accumulateBalances es).length : ℚ) * (1/200) := h1
    _ ≤ ((accumulateBalances es).length : ℚ) * (1/100) := by
        have : (0:ℚ) ≤ ((accumulateBalances es).length : ℚ) := by positivity
        linarith

/-- C7: the number of transfers is at most (number of distinct debtors) +
(number of distinct creditors) − 1, where a debtor is a name whose rounded
balance is negative and a creditor one whose rounded balance is positive. -/
theorem transfer_count_bound (es : List Expense) :
    (calculateSettlements es).2.length ≤
      (accumulateBalances es).countP (fun p => decide (round2 p.2 < 0)) +
        (accumulateBalances es).countP (fun p => decide (0 < round2 p.2)) - 1 := by
  rw [calculateSettlements_eq]
  calc (settleLoop (partitionParties (accumulateBalances es)).2
          (partitionParties (accumulateBalances es)).1).1.length
      ≤ (partitionParties (accumulateBalances es)).2.length +
          (partitionParties (accumulateBalances es)).1.length - 1 :=
        settleLoop_length_le _ _
    _ = _ := by
        rw [partitionParties_creditors_length, partitionParties_debtors_length]

/-! ## Claims C2 (amended), C8, C10 -/

/-- C2 amended: the returned balances mapping holds the raw (unrounded)
running totals; two-decimal rounding is applied when the totals are
partitioned into creditors and debtors, so every partition amount and every
emitted transfer amount is an exact two-decimal value. -/
theorem rounding_at_partition (es : List Expense) :
    (calculateSettlements es).1 = accumulateBalances es ∧
      (∀ p ∈ (partitionParties (accumulateBalances es)).1, round2 p.amount = p.amount) ∧
      (∀ p ∈ (partitionParties (accumulateBalances es)).2, round2 p.amount = p.amount) ∧
      (∀ t ∈ (calculateSettlements es).2, round2 t.amount = t.amount) := by
  refine ⟨rfl, ?_, ?_, ?_⟩
  · intro p hp
    exact ((partitionParties_creditors_inv _ p hp).2).round2_eq
  · intro p hp
    exact ((partitionParties_debtors_inv _ p hp).2).round2_eq
  · intro t ht
    rw [calculateSettlements_eq] at ht
    exact ((settleLoop_transfers_inv _ _ (partitionParties_debtors_inv _)
      (partitionParties_creditors_inv _) t ht).2).round2_eq

/-- Witness for the amended C2: the emitted transfer B→A 15 of the two-way
equal split carries an exact two-decimal amount. -/
theorem rounding_at_partition_witness :
    round2 (Transfer.mk "B" "A" 15).amount = (Transfer.mk "B" "A" 15).amount :=
  (rounding_at_partition [⟨"A", 30, "dinner", "A,B"⟩]).2.2.2 ⟨"B", "A", 15⟩
    (by rw [eval_plain]; decide)

/-- C8: every transfer runs from a name whose rounded balance is strictly
negative to a name whose rounded balance is strictly positive; since the
balances mapping has distinct keys, no name is both, so `from ≠ to`. -/
theorem transfer_endpoints (es : List Expense) (t : Transfer)
    (ht : t ∈ (calculateSettlements es).2) :
    t.fromName ≠ t.toName ∧
      (∃ v, (t.fromName, v) ∈ accumulateBalances es ∧ round2 v < 0) ∧
      (∃ v, (t.toName, v) ∈ accumulateBalances es ∧ 0 < round2 v) := by
  rw [calculateSettlements_eq] at ht
  obtain ⟨hf, hto⟩ := settleLoop_names _ _ t ht
  obtain ⟨pd, hpd, hpdname⟩ := List.mem_map.mp hf
  obtain ⟨pc, hpc, hpcname⟩ := List.mem_map.mp hto
  obtain ⟨v, hv1, hv2, _⟩ := partitionParties_debtors_mem _ pd hpd
  obtain ⟨w, hw1, hw2, _⟩ := partitionParties_creditors_mem _ pc hpc
  have hkeyv : (t.fromName, v) ∈ accumulateBalances es := by
    rw [← hpdname]
    exact hv1
  have hkeyw : (t.toName, w) ∈ accumulateBalances es := by
    rw [← hpcname]
    exact hw1
  refine ⟨?_, ⟨v, hkeyv, hv2⟩, ⟨w, hkeyw, hw2⟩⟩
  intro hcontra
  have hkeyw2 : (t.fromName, w) ∈ accumulateBalances es := by
    rw [hcontra]
    exact hkeyw
  have hvw := value_unique_of_fst_nodup (accumulateBalances_fst_nodup es) hkeyv hkeyw2
  rw [hvw] at hv2
  linarith

/-- Witness for C8: in the two-way equal split the single transfer goes
from "B" (rounded balance −15) to "A" (rounded balance 15). -/
theorem transfer_endpoints_witness :
    ("B" : String) ≠ "A" ∧
      (∃ v, (("B" : String), v) ∈ accumulateBalances [⟨"A", 30, "dinner", "A,B"⟩] ∧
        round2 v < 0) ∧
      (∃ v, (("A" : String), v) ∈ accumulateBalances [⟨"A", 30, "dinner", "A,B"⟩] ∧
        0 < round2 v) :=
  transfer_endpoints [⟨"A", 30, "dinner", "A,B"⟩] ⟨"B", "A", 15⟩
    (by rw [eval_plain]; decide)

/-- C10: a name whose rounded balance is exactly zero enters neither
partition and appears in no transfer; transfer endpoints always come from
the debtor and creditor partitions. -/
theorem zero_balance_untouched (es : List Expense) (n : String) (v : ℚ)
    (hmem : (n, v) ∈ accumulateBalances es) (hzero : round2 v = 0) :
    ∀ t ∈ (calculateSettlements es).2,
      (t.fromName ≠ n ∧ t.toName ≠ n) ∧
        t.fromName ∈ (partitionParties (accumulateBalances es)).2.map Party.name ∧
        t.toName ∈ (partitionParties (accumulateBalances es)).1.map Party.name := by
  intro t ht
  rw [calculateSettlements_eq] at ht
  obtain ⟨hf, hto⟩ := settleLoop_names _ _ t ht
  refine ⟨⟨?_, ?_⟩, hf, hto⟩
  · intro hcontra
    obtain ⟨pd, hpd, hpdname⟩ := List.mem_map.mp hf
    obtain ⟨w, hw1, hw2, _⟩ := partitionParties_debtors_mem _ pd hpd
    have hkey : (n, w) ∈ accumulateBalances es := by
      rw [← hcontra, ← hpdname]
      exact hw1
    have hwv := value_unique_of_fst_nodup (accumulateBalances_fst_nodup es) hkey hmem
    rw [hwv, hzero] at hw2
    exact absurd hw2 (lt_irrefl 0)
  · intro hcontra
    obtain ⟨pc, hpc, hpcname⟩ := List.mem_map.mp hto
    obtain ⟨w, hw1, hw2, _⟩ := partitionParties_creditors_mem _ pc hpc
    have hkey : (n, w) ∈ accumulateBalances es := by
      rw [← hcontra, ← hpcname]
      exact hw1
    have hwv := value_unique_of_fst_nodup (accumulateBalances_fst_nodup es) hkey hmem
    rw [hwv, hzero] at hw2
    exact absurd hw2 (lt_irrefl 0)

unseal Rat.add Rat.mul Rat.inv Rat.sub in
theorem accum_zero :
    accumulateBalances [⟨"A", 30, "dinner", "A,B"⟩, ⟨"C", 10, "solo", "C"⟩] =
      [("A", 15), ("B", -15), ("C", 0)] := by decide

unseal Rat.add Rat.mul Rat.inv Rat.sub in
theorem partition_zero :
    partitionParties [("A", (15 : ℚ)), ("B", -15), ("C", 0)] =
      ([⟨"A", 15⟩], [⟨"B", 15⟩]) := by decide

/-- The engine on two records in which "C" pays an expense consumed
entirely by "C": C ends at balance exactly 0 and appears in no transfer. -/
theorem eval_zero :
    calculateSettlements [⟨"A", 30, "dinner", "A,B"⟩, ⟨"C", 10, "solo", "C"⟩] =
      ([("A", 15), ("B", -15), ("C", 0)], [⟨"B", "A", 15⟩]) := by
  rw [calculateSettlements_eq, accum_zero, partition_zero]
  rw [show (([⟨"A", (15 : ℚ)⟩], [⟨"B", (15 : ℚ)⟩]) :
      List Party × List Party).2 = [⟨"B", (15 : ℚ)⟩] from rfl]
  rw [show (([⟨"A", (15 : ℚ)⟩], [⟨"B", (15 : ℚ)⟩]) :
      List Party × List Party).1 = [⟨"A", (15 : ℚ)⟩] from rfl]
  rw [settle_plain]

unseal Rat.add Rat.mul Rat.inv Rat.sub in
/-- Witness for C10 at the two-record input where "C" nets to exactly zero:
the emitted transfer B→A avoids "C" on both sides and its endpoints come
from the partitions. -/
theorem zero_balance_untouched_witness :
    ((("B" : String) ≠ "C" ∧ ("A" : String) ≠ "C") ∧
      ("B" : String) ∈ (partitionParties (accumulateBalances
        [⟨"A", 30, "dinner", "A,B"⟩, ⟨"C", 10, "solo", "C"⟩])).2.map Party.name ∧
      ("A" : String) ∈ (partitionParties (accumulateBalances
        [⟨"A", 30, "dinner", "A,B"⟩, ⟨"C", 10, "solo", "C"⟩])).1.map Party.name) :=
  zero_balance_untouched [⟨"A", 30, "dinner", "A,B"⟩, ⟨"C", 10, "solo", "C"⟩] "C" 0
    (by rw [accum_zero]; decide) (by decide) ⟨"B", "A", 15⟩ (by rw [eval_zero]; decide)

/-! ## Claim C9: participant storage round-trip -/

/-- C9: joining a participants array with `','` at creation time
(`dto.participants.join(',')`) and then splitting on `','`, trimming and
dropping blanks at settlement time recovers exactly the original array, in
order — provided each entry is non-empty, contains no comma and carries no
leading or trailing whitespace. -/
theorem parse_join_roundtrip (parts : List String)
    (h : ∀ p ∈ parts, p.data ≠ [] ∧ ',' ∉ p.data ∧ trimChars p.data = p.data) :
    parseParticipants (joinComma parts) = parts := by
  rcases parts with _ | ⟨p, rest⟩
  · rfl
  · unfold parseParticipants joinComma splitComma
    rw [show (String.mk (List.intercalate [','] ((p :: rest).map String.data))).data
        = List.intercalate [','] ((p :: rest).map String.data) from rfl]
    rw [List.splitOn_intercalate ((p :: rest).map String.data) ',' ?hx ?hne]
    case hx =>
      intro l hl
      obtain ⟨q, hq, rfl⟩ := List.mem_map.mp hl
      exact (h q hq).2.1
    case hne => simp
    have h1 : List.map trimChars (List.map String.data (p :: rest)) =
        List.map String.data (p :: rest) := by
      rw [List.map_map]
      exact List.map_congr_left fun q hq => (h q hq).2.2
    rw [h1]
    rw [List.filter_eq_self.mpr ?_]
    · rw [List.map_map]
      exact List.map_id'' (fun q => rfl) _
    · intro a ha
      obtain ⟨q, hq, rfl⟩ := List.mem_map.mp ha
      simpa using (h q hq).1

/-- Witness for C9 on a concrete two-name array. -/
theorem parse_join_roundtrip_witness :
    parseParticipants (joinComma ["Alice", "Bob"]) = ["Alice", "Bob"] :=
  parse_join_roundtrip ["Alice", "Bob"] (by decide)

end ExpenseSplitter
